import Mathlib

/-!
Verification development for the TaleCast synchronization engine
(`src/podcast.rs`, `src/tags.rs`, `src/utils.rs`).

The Rust code is shallowly embedded:
* `serde_json::Value` is modelled by the inductive `Json`; `serde_json::Map`
  is modelled by an association list `List (String × Json)` (lookup finds the
  first matching key, as `Map::get` does).
* The external XML→JSON converter `quickxml_to_serde::xml_string_to_json`
  (applied to the text in which `itunes:` has already been replaced by the
  placeholder) is kept abstract: functions take its result, an
  `Option Json`, as a parameter.
* Rust panics (`unwrap` on `None`/`Err`) are modelled by `Except.error ()`;
  a normally returned value `v` is `Except.ok v`.
* Machine integers are modelled by `Nat` with an explicit `% 2 ^ 32` where
  `u32` overflow matters.
* The missing modules of the repository (`episode.rs`, `config.rs`,
  `display.rs`) enter only through abstract oracle parameters
  (`should_download`, `Episode::new`, `Podcast::download_episode`).
-/

/-- Model of `serde_json::Value`.  Objects are association lists. -/
inductive Json where
  | null : Json
  | bool (b : Bool) : Json
  | num (n : Int) : Json
  | str (s : String) : Json
  | arr (elems : List Json) : Json
  | obj (fields : List (String × Json)) : Json

/-- `Value::get` / `Map::get` on an object; `none` on any other shape. -/
def Json.getKey (j : Json) (k : String) : Option Json :=
  match j with
  | .obj fields => fields.lookup k
  | _ => none

/-- `Value::as_array`. -/
def Json.asArr (j : Json) : Option (List Json) :=
  match j with
  | .arr elems => some elems
  | _ => none

/-- `Value::as_object`, returning the field list. -/
def Json.asObj (j : Json) : Option (List (String × Json)) :=
  match j with
  | .obj fields => some fields
  | _ => none

/-- `RawPodcast` from `src/podcast.rs`: the decoded channel mapping. -/
structure RawPodcast where
  fields : List (String × Json)

/-- `RawEpisode` from `src/episode.rs` (constructor only): one item mapping. -/
structure RawEpisode where
  fields : List (String × Json)

/-- Left-to-right, non-overlapping replacement of `pat` by `rep`, the
semantics of Rust `str::replace`, on character lists. -/
def replaceAll (pat rep : List Char) (s : List Char) : List Char :=
  if h : pat ≠ [] ∧ pat.isPrefixOf s then
    rep ++ replaceAll pat rep (s.drop pat.length)
  else
    match s with
    | [] => []
    | c :: cs => c :: replaceAll pat rep cs
termination_by s.length
decreasing_by
  · have hpat : 0 < pat.length := List.length_pos.mpr h.1
    have hle : pat.length ≤ s.length :=
      (List.isPrefixOf_iff_prefix.mp h.2).length_le
    simp only [List.length_drop]
    omega
  · simp

/-- The placeholder from `src/utils.rs` (`NAMESPACE_ALTER`). -/
def placeholderChars : List Char := "__placeholder__".toList

/-- `replacement = format!("itunes{}", placeholder)` in `xml_to_value`. -/
def replacementChars : List Char := "itunes__placeholder__".toList

/-- The `itunes:` prefix that the placeholder stands in for. -/
def itunesChars : List Char := "itunes:".toList

/-- The forward rewrite `xml.replace("itunes:", &replacement)` at the
granularity of a single tag name / key (the external converter copies tag
names into keys verbatim). -/
def encodeKey (k : String) : String :=
  String.mk (replaceAll itunesChars replacementChars k.data)

/-- The backward rewrite `key.replace(&replacement, "itunes:")` applied by
`xml_to_value` to every top-level channel key and every item key. -/
def restoreKey (k : String) : String :=
  String.mk (replaceAll replacementChars itunesChars k.data)

/-- The key-restoring copy of a map performed by `xml_to_value`
(`new_map.insert(key.replace(&replacement, "itunes:"), value.clone())`). -/
def restoreKeys (fields : List (String × Json)) : List (String × Json) :=
  fields.map (fun kv => (restoreKey kv.1, kv.2))

/-- The per-item conversion inside `xml_to_value`:
`item.as_object().unwrap()` panics (modelled by `none`) when an element of
the `item` array is not an object; otherwise the item's keys are restored. -/
def convertItems : List Json → Option (List RawEpisode)
  | [] => some []
  | item :: rest =>
    match item with
    | .obj fields =>
      match convertItems rest with
      | some eps => some (RawEpisode.mk (restoreKeys fields) :: eps)
      | none => none
    | _ => none

/-- `xml_to_value` from `src/podcast.rs` (lines 23–62).  The argument is the
result of `xml_string_to_json(...).ok()` on the placeholder-rewritten text
(`none` = unparseable XML).  `Except.error ()` models the panic of
`item.as_object().unwrap()`. -/
def xmlToValue (parsed : Option Json) :
    Except Unit (Option (RawPodcast × List RawEpisode)) :=
  match parsed with
  | none => .ok none
  | some root =>
    match root.getKey "rss" with
    | none => .ok none
    | some rss =>
      match rss.getKey "channel" with
      | none => .ok none
      | some channel =>
        let newMap := match channel.asObj with
          | some fields => restoreKeys fields
          | none => []
        let podcast := RawPodcast.mk newMap
        match channel.asObj with
        | none => .ok none
        | some fields =>
          match fields.lookup "item" with
          | none => .ok none
          | some itemsVal =>
            match itemsVal.asArr with
            | none => .ok none
            | some items =>
              match convertItems items with
              | none => .error ()
              | some episodes => .ok (some (podcast, episodes))

/-- Modelled from the spec: the failure condition of the decoder as §4.1
states it — the decoder "fails (returns none) if the document lacks an
`rss/channel` path or the channel lacks an `item` list", or the XML is
unparseable.  Used to compare the code's behaviour with the spec's words. -/
def specDecoderFails (parsed : Option Json) : Bool :=
  match parsed with
  | none => true
  | some root =>
    match (root.getKey "rss").bind (fun rss => rss.getKey "channel") with
    | none => true
    | some channel =>
      match (channel.getKey "item").bind Json.asArr with
      | none => true
      | some _ => false

/-- Does every element of the channel's `item` array decode as an object?
(Trivially true when there is no item array.)  This is the precondition
under which the `unwrap` in `xml_to_value` is unreachable. -/
def itemsAllObjects (parsed : Option Json) : Bool :=
  match parsed with
  | none => true
  | some root =>
    match (root.getKey "rss").bind (fun rss => rss.getKey "channel") with
    | none => true
    | some channel =>
      match (channel.getKey "item").bind Json.asArr with
      | none => true
      | some items => items.all (fun item => (item.asObj).isSome)

/-- The number of elements of the channel's `item` array (0 when absent). -/
def itemCount (parsed : Option Json) : Nat :=
  match parsed with
  | none => 0
  | some root =>
    match (root.getKey "rss").bind (fun rss => rss.getKey "channel") with
    | none => 0
    | some channel =>
      match (channel.getKey "item").bind Json.asArr with
      | none => 0
      | some items => items.length

theorem Json.getKey_eq_asObj_lookup (j : Json) (k : String) :
    j.getKey k = j.asObj.bind (fun fields => fields.lookup k) := by
  cases j <;> rfl

theorem convertItems_of_allObjects (items : List Json)
    (h : items.all (fun item => (item.asObj).isSome) = true) :
    ∃ eps, convertItems items = some eps ∧ eps.length = items.length := by
  induction items with
  | nil => exact ⟨[], rfl, rfl⟩
  | cons x xs ih =>
    simp only [List.all_cons, Bool.and_eq_true] at h
    obtain ⟨eps, heps, hlen⟩ := ih h.2
    cases x with
    | obj fields =>
      refine ⟨RawEpisode.mk (restoreKeys fields) :: eps, ?_, by simp [hlen]⟩
      simp [convertItems, heps]
    | null => simp [Json.asObj] at h
    | bool b => simp [Json.asObj] at h
    | num n => simp [Json.asObj] at h
    | str s => simp [Json.asObj] at h
    | arr elems => simp [Json.asObj] at h

/-- A concrete well-formed feed value used to instantiate the decoder
theorems: an `rss/channel` whose single item is an object. -/
def sampleParsedFeed : Option Json :=
  some (.obj [("rss", .obj [("channel",
    .obj [("title", .str "t"),
          ("item", .arr [.obj [("guid", .str "g")]])])])])

/-- C5: the feed decoder `xml_to_value` returns `None` exactly when the
input XML is unparseable, lacks an `rss/channel` path, or the channel lacks
an `item` list; otherwise it returns the channel map together with one map
per item.  Stated under the precondition (C10) that every element of the
`item` array is an object, since otherwise the code panics instead of
returning at all. -/
theorem xmlToValue_none_iff_specDecoderFails (parsed : Option Json)
    (h : itemsAllObjects parsed = true) :
    ((xmlToValue parsed = .ok none) ↔ specDecoderFails parsed = true)
    ∧ (specDecoderFails parsed = false →
        ∃ pod eps, xmlToValue parsed = .ok (some (pod, eps)) ∧
          eps.length = itemCount parsed) := by
  cases parsed with
  | none => simp [xmlToValue, specDecoderFails]
  | some root =>
    cases hrss : root.getKey "rss" with
    | none => simp [xmlToValue, specDecoderFails, hrss]
    | some rss =>
      cases hch : rss.getKey "channel" with
      | none => simp [xmlToValue, specDecoderFails, hrss, hch]
      | some channel =>
        cases hobj : channel.asObj with
        | none =>
          have hik : channel.getKey "item" = none := by
            rw [Json.getKey_eq_asObj_lookup, hobj]; rfl
          simp [xmlToValue, specDecoderFails, hrss, hch, hobj, hik]
        | some fields =>
          cases hitem : fields.lookup "item" with
          | none =>
            have hik : channel.getKey "item" = none := by
              rw [Json.getKey_eq_asObj_lookup, hobj]; simpa using hitem
            simp [xmlToValue, specDecoderFails, hrss, hch, hobj, hitem, hik]
          | some itemsVal =>
            have hik : channel.getKey "item" = some itemsVal := by
              rw [Json.getKey_eq_asObj_lookup, hobj]; simpa using hitem
            cases harr : itemsVal.asArr with
            | none =>
              simp [xmlToValue, specDecoderFails, hrss, hch, hobj, hitem,
                hik, harr]
            | some items =>
              have hall : items.all (fun item => (item.asObj).isSome) = true := by
                simpa [itemsAllObjects, hrss, hch, hik, harr] using h
              obtain ⟨eps, heps, hlen⟩ := convertItems_of_allObjects items hall
              constructor
              · simp [xmlToValue, specDecoderFails, hrss, hch, hobj, hitem,
                  hik, harr, heps]
              · intro _
                refine ⟨RawPodcast.mk (restoreKeys fields), eps, ?_, ?_⟩
                · simp [xmlToValue, hrss, hch, hobj, hitem, harr, heps]
                · simp [itemCount, hrss, hch, hik, harr, hlen]

/-- Witness for C5 at the concrete feed `sampleParsedFeed`. -/
theorem xmlToValue_none_iff_specDecoderFails_witness :
    itemsAllObjects sampleParsedFeed = true ∧
    (((xmlToValue sampleParsedFeed = .ok none) ↔
        specDecoderFails sampleParsedFeed = true)
      ∧ (specDecoderFails sampleParsedFeed = false →
          ∃ pod eps, xmlToValue sampleParsedFeed = .ok (some (pod, eps)) ∧
            eps.length = itemCount sampleParsedFeed)) :=
  ⟨rfl, xmlToValue_none_iff_specDecoderFails sampleParsedFeed rfl⟩

/-- C10: `xml_to_value` never reaches the `item.as_object().unwrap()` panic
when every element of the channel's `item` array is a JSON object, and
without that precondition the `Option` contract fails: a feed whose `item`
array holds a string makes the decoder panic (`Except.error ()`) rather
than return `Some`/`None`. -/
theorem xmlToValue_total_iff_items_objects :
    (∀ parsed, itemsAllObjects parsed = true →
      ∃ r, xmlToValue parsed = .ok r)
    ∧ xmlToValue (some (.obj [("rss", .obj [("channel",
        .obj [("item", .arr [.str "x"])])])])) = .error () := by
  constructor
  · intro parsed h
    cases parsed with
    | none => exact ⟨none, rfl⟩
    | some root =>
      cases hrss : root.getKey "rss" with
      | none => exact ⟨none, by simp [xmlToValue, hrss]⟩
      | some rss =>
        cases hch : rss.getKey "channel" with
        | none => exact ⟨none, by simp [xmlToValue, hrss, hch]⟩
        | some channel =>
          cases hobj : channel.asObj with
          | none => exact ⟨none, by simp [xmlToValue, hrss, hch, hobj]⟩
          | some fields =>
            cases hitem : fields.lookup "item" with
            | none => exact ⟨none, by simp [xmlToValue, hrss, hch, hobj, hitem]⟩
            | some itemsVal =>
              cases harr : itemsVal.asArr with
              | none => exact ⟨none, by simp [xmlToValue, hrss, hch, hobj, hitem, harr]⟩
              | some items =>
                have hgetKey : channel.getKey "item" = some itemsVal := by
                  cases channel <;> simp_all [Json.asObj, Json.getKey]
                have hall : items.all (fun item => (item.asObj).isSome) = true := by
                  simpa [itemsAllObjects, hrss, hch, hgetKey, harr] using h
                obtain ⟨eps, heps, -⟩ := convertItems_of_allObjects items hall
                exact ⟨some (RawPodcast.mk (restoreKeys fields), eps),
                  by simp [xmlToValue, hrss, hch, hobj, hitem, harr, heps]⟩
  · rfl

/-- Witness for C10 at the concrete feed `sampleParsedFeed`. -/
theorem xmlToValue_total_iff_items_objects_witness :
    itemsAllObjects sampleParsedFeed = true ∧
    ∃ r, xmlToValue sampleParsedFeed = .ok r :=
  ⟨rfl, xmlToValue_total_iff_items_objects.1 sampleParsedFeed rfl⟩

theorem replaceAll_nil (pat rep : List Char) : replaceAll pat rep [] = [] := by
  rw [replaceAll]
  split
  · rename_i hc
    have := List.prefix_nil.mp (List.isPrefixOf_iff_prefix.mp hc.2)
    exact absurd this hc.1
  · rfl

theorem replaceAll_no_occurrence {pat : List Char} (rep : List Char)
    {s : List Char} (h : ¬ pat <:+: s) : replaceAll pat rep s = s := by
  induction s with
  | nil => exact replaceAll_nil pat rep
  | cons c cs ih =>
    rw [replaceAll]
    split
    · rename_i hc
      exact absurd (List.isPrefixOf_iff_prefix.mp hc.2).isInfix h
    · have hcs : ¬ pat <:+: cs := fun hin => h (hin.trans (List.suffix_cons c cs).isInfix)
      show c :: replaceAll pat rep cs = c :: cs
      rw [ih hcs]

theorem replaceAll_append_pat {pat : List Char} (rep : List Char)
    (hp : pat ≠ []) (r : List Char) :
    replaceAll pat rep (pat ++ r) = rep ++ replaceAll pat rep r := by
  rw [replaceAll,
    dif_pos ⟨hp, List.isPrefixOf_iff_prefix.mpr (List.prefix_append pat r)⟩,
    List.drop_left]

/-- An XML name is well formed for the namespace rewrite when it either has
no `itunes:` and no placeholder occurrence at all, or is `itunes:`-prefixed
with a remainder free of both.  Real feed keys (`title`, `itunes:author`,
…) satisfy this; the placeholder is chosen to be "unlikely" precisely so
that this holds. -/
def WFKey (k : List Char) : Prop :=
  (¬ itunesChars <:+: k ∧ ¬ placeholderChars <:+: k)
  ∨ (∃ r, k = itunesChars ++ r ∧ ¬ itunesChars <:+: r ∧ ¬ placeholderChars <:+: r)

theorem no_replacement_occurrence {k : List Char} (h : ¬ placeholderChars <:+: k) :
    ¬ replacementChars <:+: k := by
  intro hrep
  have hph : placeholderChars <:+: replacementChars := by decide
  exact h (hph.trans hrep)

/-- Key-level round trip: restoring the placeholder rewrite undoes the
forward rewrite on every well-formed key. -/
theorem replaceAll_roundtrip {k : List Char} (h : WFKey k) :
    replaceAll replacementChars itunesChars
      (replaceAll itunesChars replacementChars k) = k := by
  rcases h with ⟨hni, hnp⟩ | ⟨r, rfl, hni, hnp⟩
  · rw [replaceAll_no_occurrence _ hni,
      replaceAll_no_occurrence _ (no_replacement_occurrence hnp)]
  · rw [replaceAll_append_pat _ (by decide) r, replaceAll_no_occurrence _ hni]
    rw [replaceAll_append_pat _ (by decide) r,
      replaceAll_no_occurrence _ (no_replacement_occurrence hnp)]

theorem restoreKey_encodeKey {k : String} (h : WFKey k.data) :
    restoreKey (encodeKey k) = k := by
  show String.mk (replaceAll replacementChars itunesChars
    (replaceAll itunesChars replacementChars k.data)) = k
  rw [replaceAll_roundtrip h]

/-- The forward rewrite applied to one key/value pair of a decoded map. -/
def encodePair (kv : String × Json) : String × Json := (encodeKey kv.1, kv.2)

theorem restoreKeys_encodePair (m : List (String × Json))
    (h : ∀ kv ∈ m, WFKey kv.1.data) :
    restoreKeys (m.map encodePair) = m := by
  induction m with
  | nil => rfl
  | cons kv rest ih =>
    have hkv := h kv (List.mem_cons_self kv rest)
    have hrest : ∀ kv ∈ rest, WFKey kv.1.data :=
      fun kv' hkv' => h kv' (List.mem_cons_of_mem kv hkv')
    simp only [List.map_cons, restoreKeys, encodePair] at ih ⊢
    rw [restoreKey_encodeKey hkv]
    have := ih hrest
    simp only [restoreKeys] at this
    rw [this]

theorem encodeKey_injOn {a b : String} (ha : WFKey a.data) (hb : WFKey b.data)
    (h : encodeKey a = encodeKey b) : a = b := by
  have := congrArg restoreKey h
  rwa [restoreKey_encodeKey ha, restoreKey_encodeKey hb] at this

theorem lookup_map_encodePair (m : List (String × Json)) (a : String)
    (h : ∀ kv ∈ m, WFKey kv.1.data) (ha : WFKey a.data) :
    (m.map encodePair).lookup (encodeKey a) = m.lookup a := by
  induction m with
  | nil => rfl
  | cons kv rest ih =>
    have hkv := h kv (List.mem_cons_self kv rest)
    have hrest : ∀ kv ∈ rest, WFKey kv.1.data :=
      fun kv' hkv' => h kv' (List.mem_cons_of_mem kv hkv')
    by_cases heq : kv.1 = a
    · subst heq
      simp [List.lookup, encodePair]
    · have henc : ¬ (encodeKey kv.1 = encodeKey a) :=
        fun hc => heq (encodeKey_injOn hkv ha hc)
      have h1 : (encodeKey a == encodeKey kv.1) = false :=
        beq_eq_false_iff_ne.mpr (fun hc => henc hc.symm)
      have h2 : (a == kv.1) = false :=
        beq_eq_false_iff_ne.mpr (fun hc => heq hc.symm)
      simp only [List.map_cons, List.lookup, encodePair, h1, h2]
      exact ih hrest

theorem encodeKey_item : encodeKey "item" = "item" := by
  show String.mk (replaceAll itunesChars replacementChars "item".data) = "item"
  rw [replaceAll_no_occurrence _ (by decide)]

theorem convertItems_map_encodePair (items : List (List (String × Json)))
    (h : ∀ ikvs ∈ items, ∀ kv ∈ ikvs, WFKey kv.1.data) :
    convertItems (items.map (fun ikvs => Json.obj (ikvs.map encodePair)))
      = some (items.map RawEpisode.mk) := by
  induction items with
  | nil => rfl
  | cons ikvs rest ih =>
    have h1 := h ikvs (List.mem_cons_self ikvs rest)
    have h2 : ∀ ikvs ∈ rest, ∀ kv ∈ ikvs, WFKey kv.1.data :=
      fun i hi => h i (List.mem_cons_of_mem ikvs hi)
    simp only [List.map_cons, convertItems, ih h2,
      restoreKeys_encodePair ikvs h1]

/-- C7: namespace round trip.  For a feed authored with `itunes:`-prefixed
keys, the converter sees the placeholder-rewritten keys
(`encodePair`-images); `xml_to_value` restores every top-level channel key
and every item key, so the decoded channel map and item maps are literally
the originally-authored maps — extracting any `itunes:*` key therefore
yields the same value as if the feed had used non-colliding plain names. -/
theorem xmlToValue_restores_itunes_keys
    (chKvs : List (String × Json)) (items : List (List (String × Json)))
    (hWFc : ∀ kv ∈ chKvs, WFKey kv.1.data)
    (hWFi : ∀ ikvs ∈ items, ∀ kv ∈ ikvs, WFKey kv.1.data)
    (hItem : chKvs.lookup "item"
      = some (.arr (items.map (fun ikvs => Json.obj (ikvs.map encodePair))))) :
    xmlToValue (some (.obj [("rss", .obj [("channel",
        .obj (chKvs.map encodePair))])]))
      = .ok (some (RawPodcast.mk chKvs, items.map RawEpisode.mk)) := by
  have hlookup : (chKvs.map encodePair).lookup "item"
      = some (.arr (items.map (fun ikvs => Json.obj (ikvs.map encodePair)))) := by
    have := lookup_map_encodePair chKvs "item" hWFc (Or.inl (by decide))
    rw [encodeKey_item] at this
    rw [this, hItem]
  simp only [xmlToValue, Json.getKey, List.lookup, beq_self_eq_true,
    Json.asObj, hlookup, Json.asArr,
    convertItems_map_encodePair items hWFi,
    restoreKeys_encodePair chKvs hWFc]

/-- Concrete channel map for the C7 witness: a plain key and an
`itunes:`-prefixed key, plus the `item` list holding one item map with an
`itunes:`-prefixed key. -/
def wfChannelKvs : List (String × Json) :=
  [("title", .str "t"), ("itunes:author", .str "me"),
   ("item", .arr ([[("itunes:duration", .str "60")]].map
      (fun ikvs => Json.obj (ikvs.map encodePair))))]

/-- Concrete item maps for the C7 witness. -/
def wfItems : List (List (String × Json)) := [[("itunes:duration", .str "60")]]

theorem wfKey_of_plain {k : String} (h1 : ¬ itunesChars <:+: k.data)
    (h2 : ¬ placeholderChars <:+: k.data) : WFKey k.data := Or.inl ⟨h1, h2⟩

/-- Witness for C7 at a concrete channel with `itunes:` keys. -/
theorem xmlToValue_restores_itunes_keys_witness :
    xmlToValue (some (.obj [("rss", .obj [("channel",
        .obj (wfChannelKvs.map encodePair))])]))
      = .ok (some (RawPodcast.mk wfChannelKvs, wfItems.map RawEpisode.mk)) := by
  refine xmlToValue_restores_itunes_keys wfChannelKvs wfItems ?_ ?_ rfl
  · intro kv hkv
    simp only [wfChannelKvs, List.mem_cons] at hkv
    rcases hkv with rfl | rfl | rfl | hkv
    · exact Or.inl (by decide)
    · exact Or.inr ⟨"author".data, rfl, by decide, by decide⟩
    · exact Or.inl (by decide)
    · simp at hkv
  · intro ikvs hikvs kv hkv
    simp only [wfItems, List.mem_cons] at hikvs
    rcases hikvs with rfl | hikvs
    · simp only [List.mem_cons] at hkv
      rcases hkv with rfl | hkv
      · exact Or.inr ⟨"duration".data, rfl, by decide, by decide⟩
      · simp at hkv
    · simp at hikvs

/-- `Episode` from `src/episode.rs` (module absent from the sources): only
the fields the synchronization engine reads — the feed-unique `guid`, the
publish timestamp (unix seconds), and the `index` assigned by
`Podcast::new`. -/
structure Episode where
  guid : String
  published : Nat
  index : Nat
deriving DecidableEq

/-- `DownloadMode` from `src/config.rs` (module absent from the sources):
the two mutually exclusive policies.  `pending_episodes` only matches on
the constructor (`{ .. }` patterns), so the payloads stay abstract. -/
inductive DownloadMode where
  | standard (limit : Nat) : DownloadMode
  | backlog (start : Nat) : DownloadMode

/-- Forget the `index` field (set it to 0), for stating which parts of an
episode the sort/assignment stage of `Podcast::new` may change. -/
def eraseIndex (e : Episode) : Episode := { e with index := 0 }

/-- The index-assignment loop of `Podcast::new`
(`let mut index = 0; for episode in &mut episodes { episode.index = index; index += 1; }`). -/
def assignIndices : Nat → List Episode → List Episode
  | _, [] => []
  | n, e :: rest => { e with index := n } :: assignIndices (n + 1) rest

/-- The comparison used by `episodes.sort_by_key(|episode| episode.published)`. -/
def publishedLe (a b : Episode) : Bool := decide (a.published ≤ b.published)

/-- The comparison used by `pending.sort_by_key(|ep| ep.index)`. -/
def indexLe (a b : Episode) : Bool := decide (a.index ≤ b.index)

/-- The sort-then-assign stage of `Podcast::new` (lines 200–206 of
`src/podcast.rs`).  Rust's `sort_by_key` is a stable sort, modelled by
`List.mergeSort`. -/
def sortAndIndex (eps : List Episode) : List Episode :=
  assignIndices 0 (eps.mergeSort publishedLe)

/-- The fields of `Podcast` that drive the synchronization loop. -/
structure PodcastModel where
  raw : RawPodcast
  episodes : List Episode
  mode : DownloadMode

/-- `Podcast::pending_episodes` (lines 299–321 of `src/podcast.rs`).
`sd` is the oracle for `Episode::should_download` (defined in the absent
`episode.rs`): it receives the episode, the mode, and the total episode
count `qty`. -/
def pendingEpisodes (sd : Episode → DownloadMode → Nat → Bool)
    (p : PodcastModel) : List Episode :=
  let qty := p.episodes.length
  let pending := p.episodes.filter (fun e => sd e p.mode qty)
  match p.mode with
  | .backlog _ => pending.mergeSort indexLe
  | .standard _ => (pending.mergeSort indexLe).reverse

/-- `DownloadedEpisode` from `src/episode.rs` (module absent): the episode,
its destination path, and whether its background handle has been awaited. -/
structure DownloadedEpisode where
  episode : Episode
  path : String
  handleDone : Bool
deriving DecidableEq

/-- `DownloadedEpisode::await_handle` (absent `episode.rs`): joining the
background work, leaving the path unchanged. -/
def awaitHandle (d : DownloadedEpisode) : DownloadedEpisode :=
  { d with handleDone := true }

/-- The ordered download loop of `Podcast::sync` (lines 272–281): stop at
the first episode whose `download_episode` (oracle `dl`) fails. -/
def syncLoop (dl : Episode → Except String DownloadedEpisode) :
    List Episode → List DownloadedEpisode
  | [] => []
  | e :: rest =>
    match dl e with
    | .ok d => d :: syncLoop dl rest
    | .error _ => []

/-- `Podcast::sync` (lines 266–293): compute the pending episodes, run the
ordered loop, then await every background handle and collect the paths. -/
def podcastSync (sd : Episode → DownloadMode → Nat → Bool)
    (dl : Episode → Except String DownloadedEpisode)
    (p : PodcastModel) : List String :=
  (((syncLoop dl (pendingEpisodes sd p)).map awaitHandle).map
    (fun d => d.path))

/-- The per-podcast inputs of `Podcasts::sync`: the feed fetch result
(`utils::download_text`, `none` = network failure), the external XML→JSON
conversion, and the oracles for the absent `episode.rs`/`config.rs`
functions (`Episode::new`, the resolved mode, `should_download`,
`download_episode`). -/
structure PodcastInput where
  fetch : Option String
  parse : String → Option Json
  epBuild : RawEpisode → Option Episode
  mode : DownloadMode
  sd : Episode → DownloadMode → Nat → Bool
  dl : Episode → Except String DownloadedEpisode

/-- `Podcast::new` (lines 167–211): fetch the feed text, decode it, build
episodes (items with missing required fields are dropped by `Episode::new`),
sort and index them.  The outer `Except Unit` is the panic channel
inherited from `xml_to_value`. -/
def podcastNew (inp : PodcastInput) :
    Except Unit (Except String PodcastModel) :=
  match inp.fetch with
  | none => .ok (.error "failed to download xml-file")
  | some xml =>
    match xmlToValue (inp.parse xml) with
    | .error u => .error u
    | .ok none => .ok (.error "failed to parse xml")
    | .ok (some (channel, raws)) =>
      .ok (.ok { raw := channel,
                 episodes := sortAndIndex (raws.filterMap inp.epBuild),
                 mode := inp.mode })

/-- The body of the task spawned per podcast by `Podcasts::sync`
(lines 125–133): on construction failure report the error to the podcast's
display line and return no paths; otherwise run `Podcast::sync`.  The
result pairs the returned paths with the errors reported to the display
line; `Except.error` is a panicked task. -/
def podcastTask (inp : PodcastInput) :
    Except Unit (List String × List String) :=
  match podcastNew inp with
  | .error u => .error u
  | .ok (.error e) => .ok ([], [e])
  | .ok (.ok p) => .ok (podcastSync inp.sd inp.dl p, [])

/-- The paths a single podcast contributes to the aggregated result. -/
def contribution (inp : PodcastInput) : List String :=
  match podcastTask inp with
  | .error _ => []
  | .ok (paths, _) => paths

/-- The errors a single podcast reports to its display line. -/
def reported (inp : PodcastInput) : List String :=
  match podcastTask inp with
  | .error _ => []
  | .ok (_, reps) => reps

/-- `Podcasts::sync` (lines 105–143): join all per-podcast tasks, drop
panicked ones (`filter_map(Result::ok)`), and flatten the path lists. -/
def podcastsSync (inputs : List PodcastInput) : List String :=
  (((inputs.map podcastTask).filterMap Except.toOption).map
    (fun r => r.1)).flatten

theorem publishedLe_trans : ∀ a b c : Episode,
    publishedLe a b → publishedLe b c → publishedLe a c := by
  intro a b c hab hbc
  simp only [publishedLe, decide_eq_true_eq] at *
  omega

theorem publishedLe_total : ∀ a b : Episode,
    publishedLe a b || publishedLe b a := by
  intro a b
  simp only [publishedLe, Bool.or_eq_true, decide_eq_true_eq]
  omega

theorem indexLe_trans : ∀ a b c : Episode,
    indexLe a b → indexLe b c → indexLe a c := by
  intro a b c hab hbc
  simp only [indexLe, decide_eq_true_eq] at *
  omega

theorem indexLe_total : ∀ a b : Episode, indexLe a b || indexLe b a := by
  intro a b
  simp only [indexLe, Bool.or_eq_true, decide_eq_true_eq]
  omega

theorem assignIndices_map_index (n : Nat) (l : List Episode) :
    (assignIndices n l).map (fun e => e.index) = List.range' n l.length := by
  induction l generalizing n with
  | nil => rfl
  | cons e rest ih => simp [assignIndices, List.range', ih]

theorem assignIndices_map_eraseIndex (n : Nat) (l : List Episode) :
    (assignIndices n l).map eraseIndex = l.map eraseIndex := by
  induction l generalizing n with
  | nil => rfl
  | cons e rest ih => simp [assignIndices, eraseIndex, ih]

theorem assignIndices_map_published (n : Nat) (l : List Episode) :
    (assignIndices n l).map (fun e => e.published)
      = l.map (fun e => e.published) := by
  induction l generalizing n with
  | nil => rfl
  | cons e rest ih => simp [assignIndices, ih]

theorem pairwise_published_of_map {l : List Episode}
    (h : (l.map (fun e => e.published)).Pairwise (· ≤ ·)) :
    l.Pairwise (fun a b => a.published ≤ b.published) :=
  (List.pairwise_map).mp h

theorem mergeSort_filter_published (eps : List Episode) (t : Nat) :
    (eps.mergeSort publishedLe).filter (fun e => e.published == t)
      = eps.filter (fun e => e.published == t) := by
  have hmem : ∀ e ∈ eps.filter (fun e => e.published == t),
      e.published = t := by
    intro e he
    have := List.of_mem_filter he
    simpa using this
  have hpw : (eps.filter (fun e => e.published == t)).Pairwise
      (fun a b => publishedLe a b = true) := by
    refine List.pairwise_of_forall_mem_list ?_
    intro a ha b hb
    simp only [publishedLe, decide_eq_true_eq, hmem a ha, hmem b hb, le_refl]
  have hsub : List.Sublist (eps.filter (fun e => e.published == t))
      (eps.mergeSort publishedLe) :=
    List.sublist_mergeSort publishedLe_trans publishedLe_total hpw
      (List.filter_sublist eps)
  have hsub2 : List.Sublist (eps.filter (fun e => e.published == t))
      ((eps.mergeSort publishedLe).filter (fun e => e.published == t)) := by
    have h2 := hsub.filter (fun e => e.published == t)
    have hself : (eps.filter (fun e => e.published == t)).filter
        (fun e => e.published == t) = eps.filter (fun e => e.published == t) :=
      List.filter_eq_self.mpr (fun e he => by simp [hmem e he])
    rwa [hself] at h2
  have hlen : ((eps.mergeSort publishedLe).filter
      (fun e => e.published == t)).length
      = (eps.filter (fun e => e.published == t)).length :=
    ((eps.mergeSort_perm publishedLe).filter
      (fun e => e.published == t)).length_eq
  exact (hsub2.eq_of_length hlen.symm).symm

/-- C4: after `Podcast::new` sorts the constructed episodes by publish
timestamp and assigns indices, the list is non-decreasing in publish
timestamp, ties keep the original feed order (stability, stated as:
filtering any fixed timestamp, with indices erased, gives back exactly the
original sublist), the episodes are a permutation of the input (indices
erased), and the indices form the contiguous range `0..n-1` in list order
(so publish time is non-decreasing in index). -/
theorem sortAndIndex_sorted_stable_indexed (eps : List Episode) :
    (sortAndIndex eps).Pairwise (fun a b => a.published ≤ b.published)
    ∧ (sortAndIndex eps).map (fun e => e.index) = List.range eps.length
    ∧ ((sortAndIndex eps).map eraseIndex).Perm (eps.map eraseIndex)
    ∧ ∀ t : Nat, ((sortAndIndex eps).map eraseIndex).filter
        (fun e => e.published == t)
      = (eps.map eraseIndex).filter (fun e => e.published == t) := by
  refine ⟨?_, ?_, ?_, ?_⟩
  · have hsorted : (eps.mergeSort publishedLe).Pairwise
        (fun a b => publishedLe a b = true) :=
      List.sorted_mergeSort publishedLe_trans publishedLe_total eps
    have hpub : ((eps.mergeSort publishedLe).map
        (fun e => e.published)).Pairwise (· ≤ ·) := by
      rw [List.pairwise_map]
      exact hsorted.imp (fun h => by
        simpa [publishedLe, decide_eq_true_eq] using h)
    refine pairwise_published_of_map ?_
    rw [sortAndIndex, assignIndices_map_published]
    exact hpub
  · rw [sortAndIndex, assignIndices_map_index, List.length_mergeSort,
      List.range_eq_range']
  · rw [sortAndIndex, assignIndices_map_eraseIndex]
    exact (eps.mergeSort_perm publishedLe).map eraseIndex
  · intro t
    rw [sortAndIndex, assignIndices_map_eraseIndex]
    have hcomm : ∀ l : List Episode,
        (l.map eraseIndex).filter (fun e => e.published == t)
        = (l.filter (fun e => e.published == t)).map eraseIndex := by
      intro l
      rw [List.filter_map]
      rfl
    rw [hcomm, hcomm, mergeSort_filter_published]

/-- C3: `pending_episodes` returns exactly the episodes passing
`should_download` (with `qty` the total episode count), ordered by `index`
ascending in `Backlog` mode (oldest first) and descending in `Standard`
mode (most recent first).  The permutation with the filtered list states
that only — and all — eligible episodes are returned. -/
theorem pendingEpisodes_eligible_ordered
    (sd : Episode → DownloadMode → Nat → Bool) (p : PodcastModel) :
    (pendingEpisodes sd p).Perm
      (p.episodes.filter (fun e => sd e p.mode p.episodes.length))
    ∧ (match p.mode with
       | .backlog _ =>
          (pendingEpisodes sd p).Pairwise (fun a b => a.index ≤ b.index)
       | .standard _ =>
          (pendingEpisodes sd p).Pairwise (fun a b => b.index ≤ a.index)) := by
  cases hm : p.mode with
  | backlog c =>
    constructor
    · simp only [pendingEpisodes, hm]
      exact List.mergeSort_perm _ indexLe
    · simp only [pendingEpisodes, hm]
      exact (List.sorted_mergeSort indexLe_trans indexLe_total _).imp
        (fun h => by simpa [indexLe, decide_eq_true_eq] using h)
  | standard l =>
    constructor
    · simp only [pendingEpisodes, hm]
      exact ((List.filter _ p.episodes).mergeSort indexLe).reverse_perm.trans
        (List.mergeSort_perm _ indexLe)
    · simp only [pendingEpisodes, hm]
      rw [List.pairwise_reverse]
      exact (List.sorted_mergeSort indexLe_trans indexLe_total _).imp
        (fun h => by simpa [indexLe, decide_eq_true_eq] using h)

theorem syncLoop_stops (dl : Episode → Except String DownloadedEpisode) :
    ∀ (l : List Episode) (i : Nat),
    (∀ j, j < i → ∀ e, l[j]? = some e → ∃ d, dl e = .ok d) →
    (∀ e, l[i]? = some e → ∃ msg, dl e = .error msg) →
    syncLoop dl l = (l.take i).filterMap (fun e => (dl e).toOption)
  | [], i, _, _ => by simp [syncLoop]
  | e :: rest, 0, _, h3 => by
    obtain ⟨msg, hmsg⟩ := h3 e (by simp)
    simp [syncLoop, hmsg]
  | e :: rest, i + 1, h2, h3 => by
    obtain ⟨d, hd⟩ := h2 0 (Nat.succ_pos i) e (by simp)
    have ih := syncLoop_stops dl rest i
      (fun j hj e' he' => h2 (j + 1) (Nat.succ_lt_succ hj) e' (by simpa using he'))
      (fun e' he' => h3 e' (by simpa using he'))
    simp [syncLoop, hd, List.take_succ_cons, ih, Except.toOption]

theorem filterMap_toOption_length
    (dl : Episode → Except String DownloadedEpisode) (l : List Episode)
    (h : ∀ e ∈ l, ∃ d, dl e = .ok d) :
    (l.filterMap (fun e => (dl e).toOption)).length = l.length := by
  induction l with
  | nil => rfl
  | cons e rest ih =>
    obtain ⟨d, hd⟩ := h e (List.mem_cons_self e rest)
    have htail := ih (fun e' he' => h e' (List.mem_cons_of_mem e he'))
    have hcons : List.filterMap (fun e => (dl e).toOption) (e :: rest)
        = d :: List.filterMap (fun e => (dl e).toOption) rest := by
      rw [List.filterMap_cons]
      simp [hd, Except.toOption]
    rw [hcons]
    simp [htail]

theorem mem_take_getElem {α : Type} {l : List α} {i : Nat} {e : α}
    (h : e ∈ l.take i) : ∃ j, j < i ∧ l[j]? = some e := by
  obtain ⟨j, hj⟩ := List.mem_iff_getElem?.mp h
  have hlt : j < (l.take i).length := by
    by_contra hge
    rw [List.getElem?_eq_none (Nat.le_of_not_lt hge)] at hj
    exact Option.noConfusion hj
  have hji : j < i := lt_of_lt_of_le hlt (by simp [List.length_take])
  rw [List.getElem?_take, if_pos hji] at hj
  exact ⟨j, hji, hj⟩

/-- C1: if `download_episode` succeeds on the first `i` pending episodes
and fails on the `i`-th (0-based), `Podcast::sync` stops the loop there and
returns exactly the `i` paths of the already-downloaded episodes, each of
whose background handles has been awaited; nothing is rolled back. -/
theorem podcastSync_stops_at_first_failure
    (sd : Episode → DownloadMode → Nat → Bool)
    (dl : Episode → Except String DownloadedEpisode)
    (p : PodcastModel) (i : Nat)
    (h1 : i < (pendingEpisodes sd p).length)
    (h2 : ∀ j, j < i → ∀ e, (pendingEpisodes sd p)[j]? = some e →
      ∃ d, dl e = .ok d)
    (h3 : ∀ e, (pendingEpisodes sd p)[i]? = some e →
      ∃ msg, dl e = .error msg) :
    podcastSync sd dl p
      = (((pendingEpisodes sd p).take i).filterMap
          (fun e => (dl e).toOption)).map (fun d => (awaitHandle d).path)
    ∧ (((pendingEpisodes sd p).take i).filterMap
        (fun e => (dl e).toOption)).length = i
    ∧ ((syncLoop dl (pendingEpisodes sd p)).map awaitHandle).all
        (fun d => d.handleDone) = true := by
  have hloop := syncLoop_stops dl (pendingEpisodes sd p) i h2 h3
  refine ⟨?_, ?_, ?_⟩
  · rw [podcastSync, hloop, List.map_map]
    rfl
  · have hok : ∀ e ∈ (pendingEpisodes sd p).take i, ∃ d, dl e = .ok d := by
      intro e he
      obtain ⟨j, hj, hje⟩ := mem_take_getElem he
      exact h2 j hj e hje
    rw [filterMap_toOption_length dl _ hok, List.length_take]
    omega
  · simp only [List.all_eq_true, List.mem_map]
    rintro d ⟨d', -, rfl⟩
    rfl

/-- Episode constants for concrete instantiations of the sync theorems. -/
def epA : Episode := ⟨"a", 1, 0⟩

def epB : Episode := ⟨"b", 2, 1⟩

/-- A concrete podcast with two episodes in backlog mode. -/
def podcastC : PodcastModel := ⟨⟨[]⟩, [epA, epB], .backlog 0⟩

/-- A `should_download` oracle accepting everything. -/
def sdAll : Episode → DownloadMode → Nat → Bool := fun _ _ _ => true

/-- A `download_episode` oracle succeeding on index 0 and failing after. -/
def dlFailAfterFirst : Episode → Except String DownloadedEpisode :=
  fun e => if e.index = 0 then .ok ⟨e, "pathA", false⟩ else .error "boom"

theorem pendingEpisodes_podcastC :
    pendingEpisodes sdAll podcastC = [epA, epB] := by
  show (List.filter _ _).mergeSort indexLe = [epA, epB]
  rw [show List.filter (fun e => sdAll e podcastC.mode
      podcastC.episodes.length) podcastC.episodes = [epA, epB] from rfl]
  exact List.mergeSort_of_sorted (by decide)

/-- Witness for C1: the second of two pending episodes fails, so the sync
returns exactly the one path downloaded before the failure. -/
theorem podcastSync_stops_at_first_failure_witness :
    podcastSync sdAll dlFailAfterFirst podcastC
      = (((pendingEpisodes sdAll podcastC).take 1).filterMap
          (fun e => (dlFailAfterFirst e).toOption)).map
          (fun d => (awaitHandle d).path)
    ∧ (((pendingEpisodes sdAll podcastC).take 1).filterMap
        (fun e => (dlFailAfterFirst e).toOption)).length = 1
    ∧ ((syncLoop dlFailAfterFirst (pendingEpisodes sdAll podcastC)).map
        awaitHandle).all (fun d => d.handleDone) = true := by
  refine podcastSync_stops_at_first_failure sdAll dlFailAfterFirst podcastC 1
    ?_ ?_ ?_
  · rw [pendingEpisodes_podcastC]
    decide
  · intro j hj e he
    have hj0 : j = 0 := by omega
    subst hj0
    rw [pendingEpisodes_podcastC] at he
    simp only [List.getElem?_cons_zero, Option.some.injEq] at he
    subst he
    exact ⟨⟨epA, "pathA", false⟩, rfl⟩
  · intro e he
    rw [pendingEpisodes_podcastC] at he
    simp only [List.getElem?_cons_succ, List.getElem?_cons_zero,
      Option.some.injEq] at he
    subst he
    exact ⟨"boom", rfl⟩

theorem podcastsSync_nil : podcastsSync [] = [] := rfl

theorem podcastsSync_cons (inp : PodcastInput) (rest : List PodcastInput) :
    podcastsSync (inp :: rest) = contribution inp ++ podcastsSync rest := by
  cases h : podcastTask inp with
  | error u => simp [podcastsSync, contribution, h, Except.toOption]
  | ok r => simp [podcastsSync, contribution, h, Except.toOption]

/-- C2: `Podcasts::sync` returns the concatenation of each configured
podcast's own contribution; a podcast whose feed fetch or feed parse fails
contributes the empty list and only reports the error to its display line;
and a podcast's contribution is unchanged by whatever its siblings do
(the aggregate splits around any one podcast). -/
theorem podcastsSync_concat_isolated :
    (∀ inputs : List PodcastInput,
      podcastsSync inputs = (inputs.map contribution).flatten)
    ∧ (∀ inp : PodcastInput, inp.fetch = none →
        contribution inp = [] ∧
        reported inp = ["failed to download xml-file"])
    ∧ (∀ inp : PodcastInput, ∀ xml, inp.fetch = some xml →
        xmlToValue (inp.parse xml) = .ok none →
        contribution inp = [] ∧ reported inp = ["failed to parse xml"])
    ∧ (∀ pre post : List PodcastInput, ∀ inp,
        podcastsSync (pre ++ inp :: post)
          = podcastsSync pre ++ contribution inp ++ podcastsSync post) := by
  have hconcat : ∀ inputs : List PodcastInput,
      podcastsSync inputs = (inputs.map contribution).flatten := by
    intro inputs
    induction inputs with
    | nil => rfl
    | cons inp rest ih => rw [podcastsSync_cons, ih, List.map_cons,
        List.flatten_cons]
  refine ⟨hconcat, ?_, ?_, ?_⟩
  · intro inp hfetch
    constructor <;> simp [contribution, reported, podcastTask, podcastNew, hfetch]
  · intro inp xml hfetch hparse
    constructor <;>
      simp [contribution, reported, podcastTask, podcastNew, hfetch, hparse]
  · intro pre post inp
    induction pre with
    | nil => rw [List.nil_append, podcastsSync_cons, podcastsSync_nil,
        List.nil_append]
    | cons q qs ih =>
      rw [List.cons_append, podcastsSync_cons, ih, podcastsSync_cons]
      simp [List.append_assoc]

/-- A concrete podcast input whose feed fetch fails. -/
def inputFetchFail : PodcastInput :=
  ⟨none, fun _ => none, fun _ => none, .standard 1, sdAll, dlFailAfterFirst⟩

/-- Witness for C2: the fetch-failing podcast contributes no paths and
reports exactly the fetch error. -/
theorem podcastsSync_concat_isolated_witness :
    contribution inputFetchFail = [] ∧
    reported inputFetchFail = ["failed to download xml-file"] :=
  podcastsSync_concat_isolated.2.1 inputFetchFail rfl

/-- A value stored in one id3 frame: plain text (`set_text`, `set_title`,
…) or a joined text-value list (`set_text_values`), or an encoded
`id3::frame::Timestamp` (`set_date_released`). -/
inductive TagValue where
  | text (s : String) : TagValue
  | texts (ls : List String) : TagValue
  | stamp (year : Int) (month : Int) (day : Int)
      (hour : Nat) (minute : Nat) (second : Nat) : TagValue
deriving DecidableEq

/-- An `APIC` picture frame (`id3::frame::Picture`); the description is
always left at its default by `add_picture`. -/
structure Picture where
  data : List Nat
  mimeType : String
  pictureType : String
deriving DecidableEq

/-- The external `id3::Tag`, abstracted to what `src/tags.rs` touches: the
text frames keyed by frame id (`TIT2` title, `TPE1` artist, `TALB` album,
`TCON` genre, `TRCK` track, `TYER` year, `TDRL` date released, and the
explicit ids `TCOP`/`TDES`/`TCAT`/`TLAN`/`TLEN`/`TPUB`/`TGID`), plus the
picture frames.  The accessors (`title()`, `track()`, …) are modelled as
presence checks on the corresponding frame. -/
structure Tag where
  frames : List (String × TagValue)
  pictures : List Picture
deriving DecidableEq

/-- A tag read from a file has at most one frame per id. -/
def Tag.WF (t : Tag) : Prop := (t.frames.map Prod.fst).Nodup

/-- `tags.get(id)` / the typed accessors: the frame stored under `id`. -/
def lookupFrame (t : Tag) (id : String) : Option TagValue :=
  t.frames.lookup id

/-- `tags.set_text(id, v)` and friends: replace the existing frame with
this id in place, or append a new frame. -/
def replaceFrame (id : String) (v : TagValue)
    (kv : String × TagValue) : String × TagValue :=
  match kv.1 == id with
  | true => (id, v)
  | false => kv

def setFrame (t : Tag) (id : String) (v : TagValue) : Tag :=
  if (t.frames.lookup id).isSome then
    { t with frames := t.frames.map (replaceFrame id v) }
  else
    { t with frames := t.frames ++ [(id, v)] }

/-- One `if tags.get(id).is_none() { if let Some(v) = source { set } }`
branch of `set_mp3_tags`: the presence check happens first, the source
value (absent sources are skipped) second. -/
def condSet (id : String) (src : Option TagValue) (t : Tag) : Tag :=
  if (t.frames.lookup id).isSome then t
  else
    match src with
    | some v => setFrame t id v
    | none => t

/-- The leading `for (id, value) in custom_tags { tags.set_text(id, value) }`
loop of `set_mp3_tags`: unconditional writes. -/
def applyCustom (custom : List (String × String)) (t : Tag) : Tag :=
  custom.foldl (fun s kv => setFrame s kv.1 (.text kv.2)) t

/-- `has_picture_type` from `src/tags.rs`. -/
def hasPictureType (t : Tag) (ty : String) : Bool :=
  t.pictures.any (fun p => p.pictureType == ty)

/-- The outcome of `reqwest::get(url)` inside `add_picture`:
`transportError` is an `Err` from the transport (DNS/connection),
otherwise a response with a success flag, a content-type (defaulting to
`""`), and an optional body (`response.bytes()` may fail). -/
inductive FetchResult where
  | transportError : FetchResult
  | response (success : Bool) (mime : String) (body : Option (List Nat)) :
      FetchResult

/-- `add_picture` from `src/tags.rs` (lines 18–42).  The
`reqwest::get(url).await.unwrap()` panics on a transport-level `Err`
(modelled `Except.error ()`); a non-success status or a failed body read
silently adds nothing. -/
def addPicture (fetch : String → FetchResult) (ty : String) (url : String)
    (t : Tag) : Except Unit Tag :=
  match fetch url with
  | .transportError => .error ()
  | .response success mime body =>
    if success then
      match body with
      | some bytes =>
        .ok { t with pictures := t.pictures ++ [⟨bytes, mime, ty⟩] }
      | none => .ok t
    else .ok t

/-- The channel-level attribute values `set_mp3_tags` reads through the
`Podcast` accessors. -/
structure PodcastMeta where
  title : String
  author : Option String
  copyright : Option String
  language : Option String
  image : Option String
  categories : List String

/-- The episode-level attribute values `set_mp3_tags` reads. -/
structure EpisodeMeta where
  title : String
  author : Option String
  itunesEpisode : Option String
  published : Nat
  description : Option String
  image : Option String
  itunesDuration : Option String
  guid : String

/-- Rust `str::parse::<u32>()`: optional leading `+`, one or more ASCII
digits, value below `2^32`. -/
def parseU32 (s : String) : Option Nat :=
  let digits := match s.data with
    | '+' :: rest => rest
    | chars => chars
  if digits.isEmpty then none
  else if digits.all Char.isDigit then
    let v := digits.foldl (fun acc c => acc * 10 + (c.toNat - 48)) 0
    if v < 4294967296 then some v else none
  else none

/-- Civil date from days since the unix epoch (the standard era-based
algorithm chrono uses): `(year, month, day)`. -/
def daysToCivil (z0 : Int) : Int × Int × Int :=
  let z := z0 + 719468
  let era : Int := (if 0 ≤ z then z else z - 146096) / 146097
  let doe : Int := z - era * 146097
  let yoe : Int := (doe - doe / 1460 + doe / 36524 - doe / 146096) / 365
  let y : Int := yoe + era * 400
  let doy : Int := doe - (365 * yoe + yoe / 4 - yoe / 100)
  let mp : Int := (5 * doy + 2) / 153
  let d : Int := doy - (153 * mp + 2) / 5 + 1
  let m : Int := if mp < 10 then mp + 3 else mp - 9
  (if m ≤ 2 then y + 1 else y, m, d)

/-- `chrono::DateTime::from_timestamp(secs, 0).year()` for the year
branch of `set_mp3_tags`. -/
def yearOfUnix (secs : Nat) : Int := (daysToCivil ((secs : Int) / 86400)).1

/-- The `id3::frame::Timestamp` built by the date-released branch. -/
def stampOfUnix (secs : Nat) : TagValue :=
  let days := (secs : Int) / 86400
  let rem := secs % 86400
  let ymd := daysToCivil days
  .stamp ymd.1 ymd.2.1 ymd.2.2 (rem / 3600) (rem % 3600 / 60) (rem % 60)

/-- The `if !has_picture_type(..) { if let Some(img_url) = episode.image()
.or(podcast.image()) { add_picture(..) } }` block (lines 108–112). -/
def pictureStep (fetch : String → FetchResult) (pod : PodcastMeta)
    (ep : EpisodeMeta) (t : Tag) : Except Unit Tag :=
  if hasPictureType t "CoverFront" then .ok t
  else
    match ep.image.or pod.image with
    | some url => addPicture fetch "CoverFront" url t
    | none => .ok t

/-- The conditional branches of `set_mp3_tags` before the picture block,
in source order, as (frame id, source value) pairs. -/
def preSteps (pod : PodcastMeta) (ep : EpisodeMeta) :
    List (String × Option TagValue) :=
  [("TIT2", some (.text ep.title)),
   ("TPE1", ep.author.map TagValue.text),
   ("TALB", some (.text pod.title)),
   ("TCON", some (.text "podcast")),
   ("TRCK", (ep.itunesEpisode.bind parseU32).map
      (fun n => .text (toString n))),
   ("TYER", some (.text (toString (yearOfUnix ep.published)))),
   ("TCOP", pod.copyright.map TagValue.text),
   ("TDES", ep.description.map TagValue.text)]

/-- The conditional branches of `set_mp3_tags` after the picture block, in
source order.  The `TLEN` source is `secs * 1000` in `u32` arithmetic,
hence the explicit `% 2^32`. -/
def postSteps (pod : PodcastMeta) (ep : EpisodeMeta) :
    List (String × Option TagValue) :=
  [("TCAT", some (.texts pod.categories)),
   ("TDRL", some (stampOfUnix ep.published)),
   ("TLAN", pod.language.map TagValue.text),
   ("TLEN", (ep.itunesDuration.bind parseU32).map
      (fun secs => .text (toString ((secs * 1000) % 4294967296)))),
   ("TPUB", pod.author.map TagValue.text),
   ("TGID", some (.text ep.guid))]

/-- Run a sequence of conditional-set branches in order. -/
def runSteps (steps : List (String × Option TagValue)) (t : Tag) : Tag :=
  steps.foldl (fun s step => condSet step.1 step.2 s) t

/-- `set_mp3_tags` from `src/tags.rs` (lines 49–170): custom tags first
(unconditional), then the conditional branches, with the cover-art block in
the middle; `Except.error ()` is the panic inherited from `add_picture`.
The final `write_to_path` is an external side effect outside the model. -/
def setMp3Tags (fetch : String → FetchResult)
    (custom : List (String × String)) (pod : PodcastMeta)
    (ep : EpisodeMeta) (t0 : Tag) : Except Unit Tag :=
  match pictureStep fetch pod ep
      (runSteps (preSteps pod ep) (applyCustom custom t0)) with
  | .error u => .error u
  | .ok t3 => .ok (runSteps (postSteps pod ep) t3)

theorem lookup_cons (a k : String) (w : TagValue)
    (es : List (String × TagValue)) :
    List.lookup a ((k, w) :: es)
      = (match a == k with
         | true => some w
         | false => List.lookup a es) := rfl

theorem replaceFrame_pos {k id : String} (v : TagValue) (w : TagValue)
    (h : (k == id) = true) : replaceFrame id v (k, w) = (id, v) := by
  simp [replaceFrame, h]

theorem replaceFrame_neg {k id : String} (v : TagValue) (w : TagValue)
    (h : (k == id) = false) : replaceFrame id v (k, w) = (k, w) := by
  simp [replaceFrame, h]

theorem beq_comm_string (a b : String) : (a == b) = (b == a) := by
  cases hab : a == b with
  | true => exact (beq_iff_eq.mpr (beq_iff_eq.mp hab).symm).symm
  | false =>
    cases hba : b == a with
    | true => rw [beq_iff_eq.mp hba] at hab; simp at hab
    | false => rfl

theorem lookup_map_replaceFrame_self (l : List (String × TagValue))
    (id : String) (v : TagValue) (h : (l.lookup id).isSome) :
    (l.map (replaceFrame id v)).lookup id = some v := by
  induction l with
  | nil => simp [List.lookup] at h
  | cons kv rest ih =>
    obtain ⟨k, w⟩ := kv
    rw [lookup_cons] at h
    cases hbeq : id == k with
    | true =>
      have hk : (k == id) = true := beq_comm_string id k ▸ hbeq
      rw [List.map_cons, replaceFrame_pos v w hk, lookup_cons]
      simp
    | false =>
      have hk : (k == id) = false := beq_comm_string id k ▸ hbeq
      rw [hbeq] at h
      rw [List.map_cons, replaceFrame_neg v w hk, lookup_cons, hbeq]
      exact ih h

theorem lookup_append_single_self (l : List (String × TagValue))
    (id : String) (v : TagValue) (h : l.lookup id = none) :
    (l ++ [(id, v)]).lookup id = some v := by
  induction l with
  | nil => simp [List.lookup]
  | cons kv rest ih =>
    obtain ⟨k, w⟩ := kv
    rw [lookup_cons] at h
    rw [List.cons_append, lookup_cons]
    cases hbeq : id == k with
    | true => rw [hbeq] at h; exact Option.noConfusion h
    | false =>
      rw [hbeq] at h
      exact ih h

theorem lookup_setFrame_self (t : Tag) (id : String) (v : TagValue) :
    (setFrame t id v).frames.lookup id = some v := by
  rw [setFrame]
  split
  · exact lookup_map_replaceFrame_self t.frames id v (by assumption)
  · exact lookup_append_single_self t.frames id v
      (Option.not_isSome_iff_eq_none.mp (by assumption))

theorem lookup_map_replaceFrame_ne (l : List (String × TagValue))
    {id id' : String} (v : TagValue) (h : id' ≠ id) :
    (l.map (replaceFrame id v)).lookup id' = l.lookup id' := by
  induction l with
  | nil => rfl
  | cons kv rest ih =>
    obtain ⟨k, w⟩ := kv
    cases hk : k == id with
    | true =>
      have hkid : k = id := beq_iff_eq.mp hk
      have h1 : (id' == id) = false := beq_eq_false_iff_ne.mpr h
      rw [List.map_cons, replaceFrame_pos v w hk, lookup_cons, h1,
        lookup_cons, hkid, h1]
      exact ih
    | false =>
      rw [List.map_cons, replaceFrame_neg v w hk, lookup_cons, lookup_cons]
      cases hbeq : id' == k with
      | true => rfl
      | false => exact ih

theorem lookup_append_single_ne (l : List (String × TagValue))
    {id id' : String} (v : TagValue) (h : id' ≠ id) :
    (l ++ [(id, v)]).lookup id' = l.lookup id' := by
  induction l with
  | nil => simp [List.lookup, beq_eq_false_iff_ne.mpr h]
  | cons kv rest ih =>
    obtain ⟨k, w⟩ := kv
    rw [List.cons_append, lookup_cons, lookup_cons]
    cases hbeq : id' == k with
    | true => rfl
    | false => exact ih

theorem lookup_setFrame_ne (t : Tag) {id id' : String} (v : TagValue)
    (h : id' ≠ id) :
    (setFrame t id v).frames.lookup id' = t.frames.lookup id' := by
  rw [setFrame]
  split
  · exact lookup_map_replaceFrame_ne t.frames v h
  · exact lookup_append_single_ne t.frames v h

theorem map_replaceFrame_keys (l : List (String × TagValue))
    (id : String) (v : TagValue) :
    (l.map (replaceFrame id v)).map Prod.fst = l.map Prod.fst := by
  induction l with
  | nil => rfl
  | cons kv rest ih =>
    obtain ⟨k, w⟩ := kv
    cases hk : k == id with
    | true =>
      have hkid : k = id := beq_iff_eq.mp hk
      rw [List.map_cons, replaceFrame_pos v w hk, List.map_cons,
        List.map_cons, ih, hkid]
    | false =>
      rw [List.map_cons, replaceFrame_neg v w hk, List.map_cons,
        List.map_cons, ih]

theorem lookup_eq_none_iff_not_mem_keys (l : List (String × TagValue))
    (id : String) : l.lookup id = none ↔ id ∉ l.map Prod.fst := by
  induction l with
  | nil => simp [List.lookup]
  | cons kv rest ih =>
    obtain ⟨k, w⟩ := kv
    rw [lookup_cons]
    cases hbeq : id == k with
    | true =>
      have : id = k := beq_iff_eq.mp hbeq
      simp [this]
    | false =>
      have : ¬ id = k := by simpa using hbeq
      simp [this, ih]

theorem setFrame_pictures (t : Tag) (id : String) (v : TagValue) :
    (setFrame t id v).pictures = t.pictures := by
  rw [setFrame]; split <;> rfl

theorem setFrame_WF (t : Tag) (id : String) (v : TagValue) (wf : Tag.WF t) :
    Tag.WF (setFrame t id v) := by
  rw [setFrame]
  split
  · show ((t.frames.map (replaceFrame id v)).map Prod.fst).Nodup
    rw [map_replaceFrame_keys]
    exact wf
  · show ((t.frames ++ [(id, v)]).map Prod.fst).Nodup
    rename_i hnone
    have hmem : id ∉ t.frames.map Prod.fst :=
      (lookup_eq_none_iff_not_mem_keys t.frames id).mp
        (Option.not_isSome_iff_eq_none.mp hnone)
    rw [List.map_append]
    refine List.Nodup.append wf (List.nodup_singleton id) ?_
    intro a ha hb
    have ha' : a = id := by simpa using hb
    exact hmem (ha' ▸ ha)

theorem map_replaceFrame_of_not_mem (l : List (String × TagValue))
    {id : String} (v : TagValue) (h : id ∉ l.map Prod.fst) :
    l.map (replaceFrame id v) = l := by
  induction l with
  | nil => rfl
  | cons kv rest ih =>
    obtain ⟨k, w⟩ := kv
    simp only [List.map_cons, List.mem_cons, not_or] at h
    have hk : (k == id) = false :=
      beq_eq_false_iff_ne.mpr (fun hc => h.1 hc.symm)
    rw [List.map_cons, replaceFrame_neg v w hk, ih h.2]

theorem map_replaceFrame_lookup_eq (l : List (String × TagValue))
    {id : String} {v : TagValue} (wf : (l.map Prod.fst).Nodup)
    (h : l.lookup id = some v) : l.map (replaceFrame id v) = l := by
  induction l with
  | nil => rfl
  | cons kv rest ih =>
    obtain ⟨k, w⟩ := kv
    rw [lookup_cons] at h
    simp only [List.map_cons, List.nodup_cons] at wf
    cases hbeq : id == k with
    | true =>
      rw [hbeq] at h
      have hkid : k = id := (beq_iff_eq.mp hbeq).symm
      have hv : w = v := by simpa using h
      have hrest : rest.map (replaceFrame id v) = rest :=
        map_replaceFrame_of_not_mem rest v (hkid ▸ wf.1)
      rw [List.map_cons,
        replaceFrame_pos v w (beq_iff_eq.mpr hkid), hrest, hkid, hv]
    | false =>
      rw [hbeq] at h
      have hk : (k == id) = false := beq_comm_string id k ▸ hbeq
      rw [List.map_cons, replaceFrame_neg v w hk, ih wf.2 h]

theorem setFrame_eq_self (t : Tag) {id : String} {v : TagValue}
    (wf : Tag.WF t) (h : t.frames.lookup id = some v) :
    setFrame t id v = t := by
  rw [setFrame, if_pos (by simp [h])]
  rw [map_replaceFrame_lookup_eq t.frames wf h]

theorem condSet_pictures (id : String) (src : Option TagValue) (t : Tag) :
    (condSet id src t).pictures = t.pictures := by
  rw [condSet.eq_def]
  split
  · rfl
  · cases src with
    | some v => exact setFrame_pictures t id v
    | none => rfl

theorem condSet_WF (id : String) (src : Option TagValue) (t : Tag)
    (wf : Tag.WF t) : Tag.WF (condSet id src t) := by
  rw [condSet.eq_def]
  split
  · exact wf
  · cases src with
    | some v => exact setFrame_WF t id v wf
    | none => exact wf

theorem condSet_lookup_ne (t : Tag) {id id' : String}
    (src : Option TagValue) (h : id' ≠ id) :
    (condSet id src t).frames.lookup id' = t.frames.lookup id' := by
  rw [condSet.eq_def]
  split
  · rfl
  · cases src with
    | some v => exact lookup_setFrame_ne t v h
    | none => rfl

theorem condSet_preserves_present (t : Tag) {id id' : String}
    (src : Option TagValue) {v' : TagValue}
    (h : t.frames.lookup id' = some v') :
    (condSet id src t).frames.lookup id' = some v' := by
  by_cases hid : id' = id
  · subst hid
    rw [condSet.eq_def, if_pos (by simp [h])]
    exact h
  · rw [condSet_lookup_ne t src hid]
    exact h

theorem condSet_establish (id : String) (src : Option TagValue) (t : Tag) :
    ((condSet id src t).frames.lookup id).isSome = true ∨ src = none := by
  rw [condSet.eq_def]
  split
  · left; assumption
  · cases src with
    | some v => left; simp [lookup_setFrame_self]
    | none => right; rfl

theorem condSet_fix (id : String) (src : Option TagValue) (t : Tag)
    (h : (t.frames.lookup id).isSome = true ∨ src = none) :
    condSet id src t = t := by
  rw [condSet.eq_def]
  split
  · rfl
  · rename_i hnone
    cases src with
    | some v =>
      rcases h with h | h
      · exact absurd h hnone
      · exact Option.noConfusion h
    | none => rfl

theorem condSet_absent_some (t : Tag) {id : String} {v : TagValue}
    (habs : t.frames.lookup id = none) :
    (condSet id (some v) t).frames.lookup id = some v := by
  rw [condSet.eq_def, if_neg (by simp [habs])]
  exact lookup_setFrame_self t id v

theorem runSteps_pictures (steps : List (String × Option TagValue))
    (t : Tag) : (runSteps steps t).pictures = t.pictures := by
  induction steps generalizing t with
  | nil => rfl
  | cons s rest ih =>
    rw [runSteps, List.foldl_cons]
    rw [show List.foldl (fun s step => condSet step.1 step.2 s)
      (condSet s.1 s.2 t) rest = runSteps rest (condSet s.1 s.2 t) from rfl]
    rw [ih, condSet_pictures]

theorem runSteps_WF (steps : List (String × Option TagValue)) (t : Tag)
    (wf : Tag.WF t) : Tag.WF (runSteps steps t) := by
  induction steps generalizing t with
  | nil => exact wf
  | cons s rest ih =>
    rw [runSteps, List.foldl_cons]
    exact ih (condSet s.1 s.2 t) (condSet_WF s.1 s.2 t wf)

theorem runSteps_preserves_present (steps : List (String × Option TagValue))
    (t : Tag) {id : String} {v : TagValue}
    (h : t.frames.lookup id = some v) :
    (runSteps steps t).frames.lookup id = some v := by
  induction steps generalizing t with
  | nil => exact h
  | cons s rest ih =>
    rw [runSteps, List.foldl_cons]
    exact ih (condSet s.1 s.2 t) (condSet_preserves_present t s.2 h)

theorem runSteps_preserves_isSome (steps : List (String × Option TagValue))
    (t : Tag) {id : String} (h : (t.frames.lookup id).isSome = true) :
    ((runSteps steps t).frames.lookup id).isSome = true := by
  obtain ⟨v, hv⟩ := Option.isSome_iff_exists.mp h
  have := runSteps_preserves_present steps t hv
  simp [this]

theorem runSteps_establish (steps : List (String × Option TagValue))
    (t : Tag) : ∀ step ∈ steps,
    ((runSteps steps t).frames.lookup step.1).isSome = true
    ∨ step.2 = none := by
  induction steps generalizing t with
  | nil => intro step h; exact absurd h (List.not_mem_nil step)
  | cons s rest ih =>
    intro step hstep
    rcases List.mem_cons.mp hstep with rfl | hmem
    · rcases condSet_establish step.1 step.2 t with h | h
      · left
        rw [runSteps, List.foldl_cons]
        exact runSteps_preserves_isSome rest (condSet step.1 step.2 t) h
      · right; exact h
    · rw [runSteps, List.foldl_cons]
      exact ih (condSet s.1 s.2 t) step hmem

theorem runSteps_fix (steps : List (String × Option TagValue)) (t : Tag)
    (h : ∀ step ∈ steps,
      (t.frames.lookup step.1).isSome = true ∨ step.2 = none) :
    runSteps steps t = t := by
  induction steps with
  | nil => rfl
  | cons s rest ih =>
    rw [runSteps, List.foldl_cons,
      condSet_fix s.1 s.2 t (h s (List.mem_cons_self s rest))]
    exact ih (fun step hstep => h step (List.mem_cons_of_mem s hstep))

theorem runSteps_lookup_not_mem (steps : List (String × Option TagValue))
    (t : Tag) {id : String} (h : id ∉ steps.map Prod.fst) :
    (runSteps steps t).frames.lookup id = t.frames.lookup id := by
  induction steps generalizing t with
  | nil => rfl
  | cons s rest ih =>
    simp only [List.map_cons, List.mem_cons, not_or] at h
    rw [runSteps, List.foldl_cons]
    rw [show List.foldl (fun s step => condSet step.1 step.2 s)
      (condSet s.1 s.2 t) rest = runSteps rest (condSet s.1 s.2 t) from rfl]
    rw [ih (condSet s.1 s.2 t) h.2, condSet_lookup_ne t s.2 h.1]

theorem runSteps_nil (t : Tag) : runSteps [] t = t := rfl

theorem runSteps_cons (s : String × Option TagValue)
    (rest : List (String × Option TagValue)) (t : Tag) :
    runSteps (s :: rest) t = runSteps rest (condSet s.1 s.2 t) := rfl

theorem applyCustom_pictures (custom : List (String × String)) (t : Tag) :
    (applyCustom custom t).pictures = t.pictures := by
  induction custom generalizing t with
  | nil => rfl
  | cons kv rest ih =>
    rw [applyCustom, List.foldl_cons]
    rw [show List.foldl (fun s kv => setFrame s kv.1 (.text kv.2))
      (setFrame t kv.1 (.text kv.2)) rest
      = applyCustom rest (setFrame t kv.1 (.text kv.2)) from rfl]
    rw [ih, setFrame_pictures]

theorem applyCustom_WF (custom : List (String × String)) (t : Tag)
    (wf : Tag.WF t) : Tag.WF (applyCustom custom t) := by
  induction custom generalizing t with
  | nil => exact wf
  | cons kv rest ih =>
    rw [applyCustom, List.foldl_cons]
    exact ih (setFrame t kv.1 (.text kv.2))
      (setFrame_WF t kv.1 (.text kv.2) wf)

theorem applyCustom_lookup_not_mem (custom : List (String × String))
    (t : Tag) {id : String} (h : id ∉ custom.map Prod.fst) :
    (applyCustom custom t).frames.lookup id = t.frames.lookup id := by
  induction custom generalizing t with
  | nil => rfl
  | cons kv rest ih =>
    simp only [List.map_cons, List.mem_cons, not_or] at h
    rw [applyCustom, List.foldl_cons]
    rw [show List.foldl (fun s kv => setFrame s kv.1 (.text kv.2))
      (setFrame t kv.1 (.text kv.2)) rest
      = applyCustom rest (setFrame t kv.1 (.text kv.2)) from rfl]
    rw [ih (setFrame t kv.1 (.text kv.2)) h.2,
      lookup_setFrame_ne t (.text kv.2) h.1]

theorem applyCustom_lookup_mem (custom : List (String × String)) (t : Tag)
    (hnd : (custom.map Prod.fst).Nodup) {k : String} {v : String}
    (hmem : (k, v) ∈ custom) :
    (applyCustom custom t).frames.lookup k = some (.text v) := by
  induction custom generalizing t with
  | nil => exact absurd hmem (List.not_mem_nil (k, v))
  | cons kv rest ih =>
    simp only [List.map_cons, List.nodup_cons] at hnd
    rw [applyCustom, List.foldl_cons]
    rw [show List.foldl (fun s kv => setFrame s kv.1 (.text kv.2))
      (setFrame t kv.1 (.text kv.2)) rest
      = applyCustom rest (setFrame t kv.1 (.text kv.2)) from rfl]
    rcases List.mem_cons.mp hmem with rfl | hmem'
    · have hknot : k ∉ rest.map Prod.fst := hnd.1
      rw [applyCustom_lookup_not_mem rest _ hknot]
      exact lookup_setFrame_self t k (.text v)
    · exact ih (setFrame t kv.1 (.text kv.2)) hnd.2 hmem'

theorem applyCustom_fix (custom : List (String × String)) (t : Tag)
    (wf : Tag.WF t)
    (h : ∀ kv ∈ custom, t.frames.lookup kv.1 = some (.text kv.2)) :
    applyCustom custom t = t := by
  induction custom with
  | nil => rfl
  | cons kv rest ih =>
    rw [applyCustom, List.foldl_cons,
      setFrame_eq_self t wf (h kv (List.mem_cons_self kv rest))]
    exact ih (fun kv' hkv' => h kv' (List.mem_cons_of_mem kv hkv'))

theorem addPicture_eq (fetch : String → FetchResult) (ty url : String)
    (t : Tag) :
    addPicture fetch ty url t
      = (match fetch url with
         | .transportError => .error ()
         | .response true mime (some bytes) =>
            .ok { t with pictures := t.pictures ++ [⟨bytes, mime, ty⟩] }
         | .response _ _ _ => .ok t) := by
  rw [addPicture.eq_def]
  cases fetch url with
  | transportError => rfl
  | response success mime body =>
    cases success with
    | true =>
      cases body with
      | some bytes => rfl
      | none => rfl
    | false => rfl

theorem pictureStep_frames (fetch : String → FetchResult)
    (pod : PodcastMeta) (ep : EpisodeMeta) (t t' : Tag)
    (h : pictureStep fetch pod ep t = .ok t') : t'.frames = t.frames := by
  rw [pictureStep] at h
  split at h
  · cases h; rfl
  · revert h
    cases ep.image.or pod.image with
    | none => intro h; cases h; rfl
    | some url =>
      intro h
      change addPicture fetch "CoverFront" url t = Except.ok t' at h
      rw [addPicture_eq] at h
      revert h
      cases fetch url with
      | transportError => intro h; exact Except.noConfusion h
      | response success mime body =>
        cases success with
        | true =>
          cases body with
          | some bytes => intro h; cases h; rfl
          | none => intro h; cases h; rfl
        | false => intro h; cases h; rfl

theorem pictureStep_pictures_extend (fetch : String → FetchResult)
    (pod : PodcastMeta) (ep : EpisodeMeta) (t t' : Tag)
    (h : pictureStep fetch pod ep t = .ok t') :
    ∃ extra, t'.pictures = t.pictures ++ extra := by
  rw [pictureStep] at h
  split at h
  · cases h; exact ⟨[], by simp⟩
  · revert h
    cases ep.image.or pod.image with
    | none => intro h; cases h; exact ⟨[], by simp⟩
    | some url =>
      intro h
      change addPicture fetch "CoverFront" url t = Except.ok t' at h
      rw [addPicture_eq] at h
      revert h
      cases fetch url with
      | transportError => intro h; exact Except.noConfusion h
      | response success mime body =>
        cases success with
        | true =>
          cases body with
          | some bytes =>
            intro h; cases h; exact ⟨[⟨bytes, mime, "CoverFront"⟩], rfl⟩
          | none => intro h; cases h; exact ⟨[], by simp⟩
        | false => intro h; cases h; exact ⟨[], by simp⟩

theorem pictureStep_restart (fetch : String → FetchResult)
    (pod : PodcastMeta) (ep : EpisodeMeta) (t t' : Tag)
    (h : pictureStep fetch pod ep t = .ok t') :
    ∀ u : Tag, u.pictures = t'.pictures →
    pictureStep fetch pod ep u = .ok u := by
  intro u hu
  rw [pictureStep] at h ⊢
  split at h
  · rename_i hpt
    cases h
    rw [if_pos (by rwa [hasPictureType, hu])]
  · rename_i hpt
    revert h
    cases himg : ep.image.or pod.image with
    | none =>
      intro h
      cases h
      rw [if_neg (by rwa [hasPictureType, hu])]
    | some url =>
      intro h
      change addPicture fetch "CoverFront" url t = Except.ok t' at h
      rw [addPicture_eq] at h
      revert h
      cases hf : fetch url with
      | transportError => intro h; exact Except.noConfusion h
      | response success mime body =>
        cases success with
        | true =>
          cases body with
          | some bytes =>
            intro h
            cases h
            have hpu : hasPictureType u "CoverFront" = true := by
              rw [hasPictureType, hu]
              simp
            rw [if_pos hpu]
          | none =>
            intro h
            cases h
            rw [if_neg (by rwa [hasPictureType, hu])]
            change addPicture fetch "CoverFront" url u = Except.ok u
            rw [addPicture_eq, hf]
        | false =>
          intro h
          cases h
          rw [if_neg (by rwa [hasPictureType, hu])]
          change addPicture fetch "CoverFront" url u = Except.ok u
          rw [addPicture_eq, hf]

/-- C6 (amended): when `set_mp3_tags` completes without panicking, every
frame outside the configured custom-tag ids keeps its pre-existing value
(derived fields are applied only where absent), pictures are only added,
and the function is idempotent: running it again on its own output
returns that output unchanged. -/
theorem setMp3Tags_no_overwrite_idempotent
    (fetch : String → FetchResult) (custom : List (String × String))
    (pod : PodcastMeta) (ep : EpisodeMeta) (t0 t1 : Tag)
    (wf0 : Tag.WF t0) (hnd : (custom.map Prod.fst).Nodup)
    (hrun : setMp3Tags fetch custom pod ep t0 = .ok t1) :
    (∀ id v, id ∉ custom.map Prod.fst → t0.frames.lookup id = some v →
      t1.frames.lookup id = some v)
    ∧ (∃ extra, t1.pictures = t0.pictures ++ extra)
    ∧ setMp3Tags fetch custom pod ep t1 = .ok t1 := by
  rw [setMp3Tags.eq_def] at hrun
  cases hps : pictureStep fetch pod ep
      (runSteps (preSteps pod ep) (applyCustom custom t0)) with
  | error u => rw [hps] at hrun; exact Except.noConfusion hrun
  | ok c =>
    rw [hps] at hrun
    injection hrun with ht1
    subst ht1
    have wfA : Tag.WF (applyCustom custom t0) := applyCustom_WF custom t0 wf0
    have wfB : Tag.WF (runSteps (preSteps pod ep) (applyCustom custom t0)) :=
      runSteps_WF _ _ wfA
    have hcf : c.frames
        = (runSteps (preSteps pod ep) (applyCustom custom t0)).frames :=
      pictureStep_frames fetch pod ep _ c hps
    have wfC : Tag.WF c := by
      show (c.frames.map Prod.fst).Nodup
      rw [hcf]
      exact wfB
    have wf1 : Tag.WF (runSteps (postSteps pod ep) c) :=
      runSteps_WF _ _ wfC
    refine ⟨?_, ?_, ?_⟩
    · intro id v hid hv
      have hA : (applyCustom custom t0).frames.lookup id = some v := by
        rw [applyCustom_lookup_not_mem custom t0 hid]
        exact hv
      have hB := runSteps_preserves_present (preSteps pod ep) _ hA
      have hc : c.frames.lookup id = some v := by rw [hcf]; exact hB
      exact runSteps_preserves_present (postSteps pod ep) c hc
    · obtain ⟨extra, hextra⟩ := pictureStep_pictures_extend fetch pod ep _ c hps
      refine ⟨extra, ?_⟩
      rw [runSteps_pictures, hextra, runSteps_pictures, applyCustom_pictures]
    · have hcustomVal : ∀ kv ∈ custom,
          (runSteps (postSteps pod ep) c).frames.lookup kv.1
            = some (.text kv.2) := by
        intro kv hkv
        obtain ⟨k, v⟩ := kv
        have hA : (applyCustom custom t0).frames.lookup k
            = some (.text v) := applyCustom_lookup_mem custom t0 hnd hkv
        have hB := runSteps_preserves_present (preSteps pod ep) _ hA
        have hc : c.frames.lookup k = some (.text v) := by
          rw [hcf]; exact hB
        exact runSteps_preserves_present (postSteps pod ep) c hc
      have hA2 : applyCustom custom (runSteps (postSteps pod ep) c)
          = runSteps (postSteps pod ep) c :=
        applyCustom_fix custom _ wf1 hcustomVal
      have hB2 : runSteps (preSteps pod ep) (runSteps (postSteps pod ep) c)
          = runSteps (postSteps pod ep) c := by
        refine runSteps_fix _ _ ?_
        intro step hstep
        rcases runSteps_establish (preSteps pod ep)
            (applyCustom custom t0) step hstep with h | h
        · left
          obtain ⟨v, hv⟩ := Option.isSome_iff_exists.mp h
          have hc : c.frames.lookup step.1 = some v := by rw [hcf]; exact hv
          have := runSteps_preserves_present (postSteps pod ep) c hc
          simp [this]
        · right; exact h
      have hpic2 : pictureStep fetch pod ep (runSteps (postSteps pod ep) c)
          = .ok (runSteps (postSteps pod ep) c) :=
        pictureStep_restart fetch pod ep _ c hps _
          (runSteps_pictures (postSteps pod ep) c)
      have hpost2 : runSteps (postSteps pod ep) (runSteps (postSteps pod ep) c)
          = runSteps (postSteps pod ep) c := by
        refine runSteps_fix _ _ ?_
        intro step hstep
        exact runSteps_establish (postSteps pod ep) c step hstep
      rw [setMp3Tags.eq_def, hA2, hB2, hpic2]
      exact congrArg Except.ok hpost2

/-- A fetch oracle whose transport always fails. -/
def fetchFail : String → FetchResult := fun _ => .transportError

/-- A podcast with only a title (no artwork, author, …). -/
def podPlain : PodcastMeta := ⟨"PodTitle", none, none, none, none, []⟩

/-- An episode with only the required fields. -/
def epPlain : EpisodeMeta :=
  ⟨"EpTitle", none, none, 0, none, none, none, "guid-1"⟩

/-- A pre-existing tag state: a copyright frame and an unrelated frame. -/
def tagTCOP : Tag :=
  ⟨[("TCOP", .text "old"), ("TENC", .text "keep")], []⟩

/-- Counterexample to C6 as stated: with the custom tag `TCOP ↦ custom`,
`set_mp3_tags` overwrites the already-present `TCOP` value `old`. -/
theorem setMp3Tags_overwrites_present_custom :
    tagTCOP.frames.lookup "TCOP" = some (.text "old")
    ∧ (match setMp3Tags fetchFail [("TCOP", "custom")] podPlain epPlain
          tagTCOP with
       | .ok t => t.frames.lookup "TCOP"
       | .error _ => none) = some (.text "custom")
    ∧ TagValue.text "custom" ≠ TagValue.text "old" :=
  ⟨rfl, rfl, by decide⟩

/-- The tag produced by the C6 witness run. -/
def tagAfterRun : Tag :=
  match setMp3Tags fetchFail [("TCOP", "custom")] podPlain epPlain
      tagTCOP with
  | .ok t => t
  | .error _ => ⟨[], []⟩

/-- Witness for C6 (amended): concretely, the pre-existing non-custom
frame `TENC` keeps its value, pictures only grow, and a second run returns
the first run's output unchanged. -/
theorem setMp3Tags_no_overwrite_idempotent_witness :
    tagAfterRun.frames.lookup "TENC" = some (.text "keep")
    ∧ (∃ extra, tagAfterRun.pictures = tagTCOP.pictures ++ extra)
    ∧ setMp3Tags fetchFail [("TCOP", "custom")] podPlain epPlain tagAfterRun
        = .ok tagAfterRun := by
  have h := setMp3Tags_no_overwrite_idempotent fetchFail
    [("TCOP", "custom")] podPlain epPlain tagTCOP tagAfterRun
    (by show (tagTCOP.frames.map Prod.fst).Nodup; decide)
    (by decide) rfl
  exact ⟨h.1 "TENC" (.text "keep") (by decide) rfl, h.2.1, h.2.2⟩

/-- C9 (amended): when `set_mp3_tags` completes, and `TLEN` is neither in
the file's pre-existing tags nor among the custom tags, the resulting
`TLEN` frame is exactly: the decimal string of `secs * 1000` in `u32`
(wrapping) arithmetic when the itunes duration parses as a `u32`, and
absent when the duration is missing or non-numeric (skipped, no error). -/
theorem setMp3Tags_duration_millis
    (fetch : String → FetchResult) (custom : List (String × String))
    (pod : PodcastMeta) (ep : EpisodeMeta) (t0 t1 : Tag)
    (hnotc : "TLEN" ∉ custom.map Prod.fst)
    (habs : t0.frames.lookup "TLEN" = none)
    (hrun : setMp3Tags fetch custom pod ep t0 = .ok t1) :
    t1.frames.lookup "TLEN"
      = (ep.itunesDuration.bind parseU32).map
          (fun secs => TagValue.text (toString ((secs * 1000) % 4294967296))) := by
  rw [setMp3Tags.eq_def] at hrun
  cases hps : pictureStep fetch pod ep
      (runSteps (preSteps pod ep) (applyCustom custom t0)) with
  | error u => rw [hps] at hrun; exact Except.noConfusion hrun
  | ok c =>
    rw [hps] at hrun
    have ht1 : t1 = runSteps (postSteps pod ep) c := (Except.ok.inj hrun).symm
    rw [ht1]
    have hA : (applyCustom custom t0).frames.lookup "TLEN" = none := by
      rw [applyCustom_lookup_not_mem custom t0 hnotc]
      exact habs
    have hB : (runSteps (preSteps pod ep)
        (applyCustom custom t0)).frames.lookup "TLEN" = none := by
      rw [runSteps_lookup_not_mem (preSteps pod ep) _ (by simp [preSteps])]
      exact hA
    have hc : c.frames.lookup "TLEN" = none := by
      rw [pictureStep_frames fetch pod ep _ c hps]
      exact hB
    simp only [postSteps, runSteps_cons, runSteps_nil]
    rw [condSet_lookup_ne _ _ (by decide), condSet_lookup_ne _ _ (by decide)]
    have hX : (condSet "TLAN" (pod.language.map TagValue.text)
        (condSet "TDRL" (some (stampOfUnix ep.published))
        (condSet "TCAT" (some (.texts pod.categories))
          c))).frames.lookup "TLEN" = none := by
      rw [condSet_lookup_ne _ _ (by decide), condSet_lookup_ne _ _ (by decide),
        condSet_lookup_ne _ _ (by decide)]
      exact hc
    cases hsrc : (ep.itunesDuration.bind parseU32).map
        (fun secs => TagValue.text (toString ((secs * 1000) % 4294967296))) with
    | some v => exact condSet_absent_some _ hX
    | none =>
      rw [condSet_fix _ _ _ (Or.inr rfl)]
      exact hX

/-- An episode whose itunes duration is the numeric string `90`. -/
def epDur : EpisodeMeta :=
  ⟨"EpTitle", none, none, 0, none, none, some "90", "guid-1"⟩

/-- The tag produced by the C9 witness run. -/
def tagAfterDur : Tag :=
  match setMp3Tags fetchFail [] podPlain epDur ⟨[], []⟩ with
  | .ok t => t
  | .error _ => ⟨[], []⟩

/-- Witness for C9 at a 90-second duration. -/
theorem setMp3Tags_duration_millis_witness :
    tagAfterDur.frames.lookup "TLEN"
      = (epDur.itunesDuration.bind parseU32).map
          (fun secs => TagValue.text (toString ((secs * 1000) % 4294967296))) :=
  setMp3Tags_duration_millis fetchFail [] podPlain epDur ⟨[], []⟩
    tagAfterDur (by decide) rfl rfl

/-- An episode whose duration `4294968` seconds overflows `u32` when
multiplied by 1000. -/
def epOverflow : EpisodeMeta :=
  ⟨"EpTitle", none, none, 0, none, none, some "4294968", "guid-1"⟩

/-- Counterexample to C9 as stated: for the duration string `4294968` the
code stores `(4294968 * 1000) mod 2^32 = 704` milliseconds, not the
decimal string of `4294968 * 1000 = 4294968000`. -/
theorem setMp3Tags_duration_overflow :
    (match setMp3Tags fetchFail [] podPlain epOverflow ⟨[], []⟩ with
     | .ok t => t.frames.lookup "TLEN"
     | .error _ => none) = some (.text "704")
    ∧ toString (4294968 * 1000) = "4294968000"
    ∧ TagValue.text "704" ≠ TagValue.text "4294968000" :=
  ⟨rfl, rfl, by decide⟩

/-- A podcast whose channel declares artwork. -/
def podWithImage : PodcastMeta :=
  ⟨"PodTitle", none, none, none, some "http://img.example/cover", []⟩

/-- C8: the artwork fetch is *not* best-effort at the transport level — a
transport error makes `add_picture` panic
(`reqwest::get(url).await.unwrap()`), aborting the whole episode pipeline,
while the claim (and spec) say the cover art is simply omitted.  Only a
non-success HTTP status (or failed body read) is handled best-effort: then
the cover art is omitted and the rest of the tag set (here `TGID`) is
still applied, with no picture added. -/
theorem addPicture_transport_error_panics :
    addPicture fetchFail "CoverFront" "http://img.example/cover" ⟨[], []⟩
      = .error ()
    ∧ setMp3Tags fetchFail [] podWithImage epPlain ⟨[], []⟩ = .error ()
    ∧ (match setMp3Tags (fun _ => .response false "" none) [] podWithImage
          epPlain ⟨[], []⟩ with
       | .ok t => t.frames.lookup "TGID"
       | .error _ => none) = some (.text "guid-1")
    ∧ (match setMp3Tags (fun _ => .response false "" none) [] podWithImage
          epPlain ⟨[], []⟩ with
       | .ok t => t.pictures
       | .error _ => [⟨[], "", ""⟩]) = [] :=
  ⟨rfl, rfl, rfl, rfl⟩
